import Mathlib

/-
Verification development for the devops-assessment repository.

The repository's only source file is `src/backend/users/urls.py`, a Django
routing table binding seven URL paths to seven views.  The handler logic
(views, models, storage) is not part of the repository, so every component
behind the routes is modelled from the specification (spec.md): the Identity
Store, the Session Gateway, the Team Registry, the Score Ledger and the
Leaderboard Engine.  The routing table itself is embedded directly from
`urls.py`.
-/

namespace DevopsAssessment

/-! ### Routing table, embedded from `src/backend/users/urls.py` -/

/-- The seven view classes imported by `urls.py` from `.views`. -/
inductive View where
  | RegisterUser
  | LoginView
  | LogoutView
  | GetUserTeam
  | UpdateUserTeam
  | UpdateHighScore
  | GetLeaderboard
deriving DecidableEq

/-- One `path(route, view, name=...)` entry of the Django url configuration. -/
structure Route where
  path : String
  view : View
  name : String
deriving DecidableEq

/-- The `urlpatterns` list of `src/backend/users/urls.py`, entry for entry. -/
def urlpatterns : List Route :=
  [ ⟨"register/", .RegisterUser, "register"⟩,
    ⟨"login/", .LoginView, "login"⟩,
    ⟨"logout/", .LogoutView, "logout"⟩,
    ⟨"team/", .GetUserTeam, "get_team"⟩,
    ⟨"update_team/", .UpdateUserTeam, "update_team"⟩,
    ⟨"update_high_score/", .UpdateHighScore, "update_high_score"⟩,
    ⟨"leaderboard/", .GetLeaderboard, "leaderboard"⟩ ]

/-! ### Score Ledger, modelled from the spec -/

/-- Modelled from the spec: a `ScoreRecord` (spec section 3), one per user, holding
the current high score (a non-negative integer) and the timestamp of the last
update.  The repository contains no data-model source, only the route to
`UpdateHighScore`. -/
structure ScoreRecord where
  current_high_score : Nat
  last_updated_at : Nat
deriving DecidableEq

/-- Modelled from the spec: the result of a score submission (spec section 4.3),
`Accepted(new_score)` or `Ignored(existing_score)` — a merely-lower score is
never an error. -/
inductive UpdateResult where
  | Accepted (new_score : Nat)
  | Ignored (existing_score : Nat)
deriving DecidableEq

/-- Modelled from the spec: the Score Ledger state, a finite table from user
identifier to the user's `ScoreRecord`. -/
abbrev Ledger := List (Nat × ScoreRecord)

/-- A table over user-identifier keys has pairwise distinct keys. -/
def keys_nodup {α : Type} (l : List (Nat × α)) : Prop :=
  l.Pairwise fun a b => a.1 ≠ b.1

instance {α : Type} (l : List (Nat × α)) : Decidable (keys_nodup l) :=
  inferInstanceAs (Decidable (l.Pairwise _))

/-- Modelled from the spec: `get_score(user_id) -> ScoreRecord | None`
(spec section 4.3), a non-blocking read of the Score Ledger. -/
def get_score (ledger : Ledger) (u : Nat) : Option ScoreRecord :=
  (ledger.find? fun p => p.1 == u).map Prod.snd

/-- Modelled from the spec: replacing one user's record in the Score Ledger,
leaving every other user's record in place. -/
def set_record (ledger : Ledger) (u : Nat) (r : ScoreRecord) : Ledger :=
  ledger.map fun p => if p.1 == u then (u, r) else p

/-- Modelled from the spec: `submit_score(user_id, candidate_score)`
(spec section 4.3).  The ledger compares the candidate against the currently
stored value: a first score creates the record and is accepted, a strictly
higher score replaces the record and refreshes `last_updated_at`, and a
lower-or-equal score is ignored as a no-op, returning the existing score. -/
def submit_score (ledger : Ledger) (u s now : Nat) : Ledger × UpdateResult :=
  match get_score ledger u with
  | none => (ledger ++ [(u, ⟨s, now⟩)], .Accepted s)
  | some r =>
    if r.current_high_score < s then
      (set_record ledger u ⟨s, now⟩, .Accepted s)
    else
      (ledger, .Ignored r.current_high_score)

/-- Modelled from the spec: a finite sequence of `submit_score` calls for one
user, each submission carrying its candidate score and timestamp. -/
def submit_seq (ledger : Ledger) (u : Nat) (subs : List (Nat × Nat)) : Ledger :=
  subs.foldl (fun l p => (submit_score l u p.1 p.2).1) ledger

/-! ### Identity Store, modelled from the spec -/

/-- Modelled from the spec: the result of `register(handle, credential)`
(spec section 6): a fresh `UserId`, or failure with `HandleTaken`. -/
inductive RegisterResult where
  | ok (uid : Nat)
  | handleTaken
deriving DecidableEq

/-- Modelled from the spec: the Identity Store state, a finite table of user
records `(user_id, handle)`; credentials are held by an external collaborator. -/
abbrev Users := List (Nat × String)

/-- Modelled from the spec: `register(handle, credential) -> UserId |
fails(HandleTaken)` (spec sections 6 and 8).  A handle that already belongs to
an existing user fails with `HandleTaken` and creates no record; otherwise a
record with a fresh identifier is created. -/
def register (users : Users) (handle : String) (fresh : Nat) :
    Users × RegisterResult :=
  if users.any (fun p => p.2 == handle) then
    (users, .handleTaken)
  else
    (users ++ [(fresh, handle)], .ok fresh)

/-! ### Session Gateway, modelled from the spec -/

/-- Modelled from the spec: the Session Gateway state (spec sections 3 and 4.1),
a finite table of sessions `(token, user_id, expiry)`. -/
abbrev Sessions := List (Nat × Nat × Nat)

/-- Modelled from the spec: the result of `logout(token)` (spec section 6):
always `success`, never an error. -/
inductive LogoutResult where
  | success
deriving DecidableEq

/-- Modelled from the spec: `resolve(token) -> UserId | fails(...)`
(spec section 4.1); expiry is checked lazily at resolution time. -/
def resolve (s : Sessions) (tok now : Nat) : Option Nat :=
  match s.find? (fun p => p.1 == tok) with
  | some p => if now < p.2.2 then some p.2.1 else none
  | none => none

/-- Modelled from the spec: `invalidate(token) -> void` (spec section 4.1),
removing any session bound to the token; invalidating an already-invalid token
is not an error. -/
def invalidate (s : Sessions) (tok : Nat) : Sessions :=
  s.filter fun p => p.1 != tok

/-- Modelled from the spec: `logout(token)` (spec section 6), idempotent, built
on `invalidate` and always reporting success. -/
def logout (s : Sessions) (tok : Nat) : Sessions × LogoutResult :=
  (invalidate s tok, .success)

/-! ### Claim C3: lower-or-equal submissions are ignored no-ops -/

/-- Claim C3: for a user with an existing `ScoreRecord`, submitting a candidate
score at most the stored high score returns `Ignored(existing_score)` — never
an error — and leaves the whole ledger (this user's score and
`last_updated_at`, and every other user's record) unchanged. -/
theorem submit_score_ignored_frame (ledger : Ledger) (u c t : Nat)
    (r : ScoreRecord) (hfind : get_score ledger u = some r)
    (hle : c ≤ r.current_high_score) :
    submit_score ledger u c t = (ledger, .Ignored r.current_high_score) := by
  simp [submit_score, hfind, Nat.not_lt.mpr hle]

/-- Claim C3 witness: a concrete ignored submission leaves the concrete ledger
untouched. -/
theorem submit_score_ignored_frame_witness :
    submit_score [(1, ⟨5, 0⟩), (2, ⟨9, 3⟩)] 1 3 7 =
      ([(1, ⟨5, 0⟩), (2, ⟨9, 3⟩)], .Ignored 5) :=
  submit_score_ignored_frame _ 1 3 7 ⟨5, 0⟩ (by decide) (by decide)

/-! ### Claim C8: registering a taken handle fails and changes nothing -/

/-- Claim C8: registering a handle that already belongs to an existing user
fails with `HandleTaken` and leaves the Identity Store unchanged — in
particular no new user record is created. -/
theorem register_handle_taken (users : Users) (handle : String)
    (fresh u0 : Nat) (hmem : (u0, handle) ∈ users) :
    register users handle fresh = (users, .handleTaken) := by
  have hany : users.any (fun p => p.2 == handle) = true :=
    List.any_eq_true.mpr ⟨(u0, handle), hmem, by simp⟩
  simp [register, hany]

/-- Claim C8 witness: registering the taken handle of a concrete store fails
and returns the store unchanged. -/
theorem register_handle_taken_witness :
    register [(1, "alice"), (2, "bob")] "bob" 3 =
      ([(1, "alice"), (2, "bob")], .handleTaken) :=
  register_handle_taken [(1, "alice"), (2, "bob")] "bob" 3 2 (by simp)

/-! ### Claim C9: logout is idempotent and never errors -/

/-- Claim C9: `logout` (and the underlying `invalidate`) is idempotent: it
reports success on every token — in particular on an already-expired or
already-invalidated one — and running it twice leaves the same session state
as running it once. -/
theorem logout_idempotent :
    (∀ s : Sessions, ∀ tok, (logout s tok).2 = .success) ∧
    (∀ s : Sessions, ∀ tok, logout (logout s tok).1 tok = logout s tok) := by
  refine ⟨fun s tok => rfl, fun s tok => ?_⟩
  simp only [logout, invalidate, Prod.mk.injEq, and_true]
  induction s with
  | nil => rfl
  | cons p rest ih =>
    by_cases hp : (p.1 != tok) = true
    · simp [List.filter_cons, hp, ih]
    · simp [List.filter_cons, hp, ih]

/-! ### Claim C10: the routing surface is exactly the seven given routes -/

/-- Claim C10: the exposed routing surface of `urls.py` is exactly seven
operations — the paths `register/`, `login/`, `logout/`, `team/`,
`update_team/`, `update_high_score/` and `leaderboard/`, in that order — each
bound to exactly one distinct view under a distinct route name, and no other
path (in particular no `get_score` route and no team-creation route) is
exposed. -/
theorem urlpatterns_surface :
    urlpatterns.map Route.path =
      ["register/", "login/", "logout/", "team/", "update_team/",
        "update_high_score/", "leaderboard/"] ∧
    urlpatterns.map Route.view =
      [.RegisterUser, .LoginView, .LogoutView, .GetUserTeam, .UpdateUserTeam,
        .UpdateHighScore, .GetLeaderboard] ∧
    urlpatterns.map Route.name =
      ["register", "login", "logout", "get_team", "update_team",
        "update_high_score", "leaderboard"] ∧
    (urlpatterns.map Route.path).Nodup ∧
    (urlpatterns.map Route.view).Nodup ∧
    (urlpatterns.map Route.name).Nodup ∧
    urlpatterns.length = 7 := by
  refine ⟨rfl, rfl, rfl, by decide, by decide, by decide, rfl⟩

/-! ### Team Registry, modelled from the spec -/

/-- Modelled from the spec: the Team Registry state (spec section 4.2), a finite
table assigning each user at most one team.  Membership counts are the derived
aggregate over this table. -/
abbrev TeamAssign := List (Nat × Nat)

/-- Modelled from the spec: `get_team(user_id) -> TeamRef | None`
(spec section 4.2). -/
def get_team (a : TeamAssign) (u : Nat) : Option Nat :=
  (a.find? fun p => p.1 == u).map Prod.snd

/-- Modelled from the spec: a team's aggregate membership count
(spec section 3), the number of users assigned to it. -/
def member_count (a : TeamAssign) (t : Nat) : Nat :=
  a.countP fun p => p.2 == t

/-- Modelled from the spec: `set_team(user_id, team_id)` (spec section 4.2), a
single atomic reassignment: one state transition moves the user from the
previous team to the new one, so no state with both counts incremented or both
decremented ever exists. -/
def set_team (a : TeamAssign) (u t : Nat) : TeamAssign :=
  match a.find? (fun p => p.1 == u) with
  | some _ => a.map fun p => if p.1 == u then (u, t) else p
  | none => a ++ [(u, t)]

/-! ### Leaderboard Engine, modelled from the spec -/

/-- Modelled from the spec: the leaderboard total preorder over score-ledger
entries (spec section 3): higher score first, ties broken by earlier
`last_updated_at`, remaining ties broken by lower user identifier. -/
def rank_le (a b : Nat × ScoreRecord) : Prop :=
  b.2.current_high_score < a.2.current_high_score ∨
    (a.2.current_high_score = b.2.current_high_score ∧
      (a.2.last_updated_at < b.2.last_updated_at ∨
        (a.2.last_updated_at = b.2.last_updated_at ∧ a.1 ≤ b.1)))

/-- The strict version of `rank_le`: entry `a` ranks strictly before entry `b`
(strictly higher score, or equal score and strictly earlier update, or equal
score and timestamp and strictly lower user identifier). -/
def beats (a b : Nat × ScoreRecord) : Prop :=
  b.2.current_high_score < a.2.current_high_score ∨
    (a.2.current_high_score = b.2.current_high_score ∧
      (a.2.last_updated_at < b.2.last_updated_at ∨
        (a.2.last_updated_at = b.2.last_updated_at ∧ a.1 < b.1)))

instance : DecidableRel rank_le := fun a b =>
  decidable_of_iff
    (b.2.current_high_score < a.2.current_high_score ∨
      (a.2.current_high_score = b.2.current_high_score ∧
        (a.2.last_updated_at < b.2.last_updated_at ∨
          (a.2.last_updated_at = b.2.last_updated_at ∧ a.1 ≤ b.1))))
    Iff.rfl

instance : DecidableRel beats := fun a b =>
  decidable_of_iff
    (b.2.current_high_score < a.2.current_high_score ∨
      (a.2.current_high_score = b.2.current_high_score ∧
        (a.2.last_updated_at < b.2.last_updated_at ∨
          (a.2.last_updated_at = b.2.last_updated_at ∧ a.1 < b.1))))
    Iff.rfl

theorem rank_le_total (a b : Nat × ScoreRecord) : rank_le a b ∨ rank_le b a := by
  simp only [rank_le]; omega

theorem rank_le_trans (a b c : Nat × ScoreRecord) :
    rank_le a b → rank_le b c → rank_le a c := by
  simp only [rank_le]; omega

instance : IsTotal (Nat × ScoreRecord) rank_le := ⟨rank_le_total⟩

instance : IsTrans (Nat × ScoreRecord) rank_le := ⟨rank_le_trans⟩

theorem beats_irrefl (a : Nat × ScoreRecord) : ¬ beats a a := by
  simp only [beats]; omega

theorem beats_asymm (a b : Nat × ScoreRecord) : beats a b → ¬ beats b a := by
  simp only [beats]; omega

theorem beats_of_rank_le_ne (a b : Nat × ScoreRecord) (h : rank_le a b)
    (hne : a.1 ≠ b.1) : beats a b := by
  simp only [rank_le] at h; simp only [beats]; omega

/-- Modelled from the spec: `top(n, team_filter?)` (spec section 4.4),
recomputing the full order over the Score Ledger snapshot on every read
(strategy (a) of the spec), restricted first to the filtered team when a
`team_filter` is given, and truncated to the first `n` entries. -/
def top (ledger : Ledger) (assign : TeamAssign) (n : Nat)
    (team_filter : Option Nat) : List (Nat × ScoreRecord) :=
  let pool :=
    match team_filter with
    | none => ledger
    | some t => ledger.filter fun p => get_team assign p.1 == some t
  (List.insertionSort rank_le pool).take n

/-- Modelled from the spec: `rank_of(user_id) -> Option u64` (spec section 4.4):
`none` for a user with no `ScoreRecord`, otherwise one plus the number of
entries ranking strictly before the user's entry in the total order. -/
def rank_of (ledger : Ledger) (u : Nat) : Option Nat :=
  match ledger.find? (fun p => p.1 == u) with
  | some e => some (1 + ledger.countP fun x => decide (beats x e))
  | none => none

/-- A sorted pool with pairwise-distinct user identifiers is pairwise ordered
by the strict relation `beats`. -/
theorem pairwise_beats_insertionSort (pool : Ledger) (hnd : keys_nodup pool) :
    (List.insertionSort rank_le pool).Pairwise beats := by
  have hs : (List.insertionSort rank_le pool).Pairwise rank_le :=
    List.sorted_insertionSort rank_le pool
  have hperm : (List.insertionSort rank_le pool).Perm pool :=
    List.perm_insertionSort rank_le pool
  have hnd2 : (List.insertionSort rank_le pool).Pairwise fun a b => a.1 ≠ b.1 :=
    (hperm.pairwise_iff fun h1 => Ne.symm h1).mpr hnd
  exact (hs.and hnd2).imp fun hab => beats_of_rank_le_ne _ _ hab.1 hab.2

/-! ### Claim C2: `top` is ordered by score, then timestamp, then identifier -/

/-- Claim C2: for every `n`, the entries of `top(n)` are pairwise ordered by the
strict leaderboard relation: strictly descending score; among equal scores the
earlier `last_updated_at` first; among equal scores and timestamps the lower
user identifier first. -/
theorem top_sorted (ledger : Ledger) (assign : TeamAssign) (n : Nat)
    (team_filter : Option Nat) (hnd : keys_nodup ledger) :
    (top ledger assign n team_filter).Pairwise beats := by
  have hpool : ∀ pool : Ledger, keys_nodup pool →
      ((List.insertionSort rank_le pool).take n).Pairwise beats := fun pool hp =>
    (pairwise_beats_insertionSort pool hp).sublist (List.take_sublist n _)
  match team_filter with
  | none => exact hpool ledger hnd
  | some t =>
    exact hpool _ (List.Pairwise.sublist (List.filter_sublist ledger) hnd)

/-- Claim C2 witness: the concrete scenario of the spec (scores 10, 30, 20)
yields a strictly ordered top-3. -/
theorem top_sorted_witness :
    keys_nodup ([(1, ⟨10, 0⟩), (2, ⟨30, 1⟩), (3, ⟨20, 2⟩)] : Ledger) ∧
    (top [(1, ⟨10, 0⟩), (2, ⟨30, 1⟩), (3, ⟨20, 2⟩)] [] 3 none).Pairwise beats :=
  ⟨by decide, top_sorted [(1, ⟨10, 0⟩), (2, ⟨30, 1⟩), (3, ⟨20, 2⟩)] [] 3 none
    (by decide)⟩

/-! ### Claim C7: `top` edge cases never fail -/

/-- Claim C7: `top(n, team_filter?)` never fails: when `n` is at least the
population it returns all entries (a permutation of the whole ledger); on an
empty population it returns the empty sequence; and with a `team_filter`
naming a team with no scored members it returns the empty sequence. -/
theorem top_edge_cases :
    (∀ (ledger : Ledger) (assign : TeamAssign) (n : Nat),
      ledger.length ≤ n → (top ledger assign n none).Perm ledger) ∧
    (∀ (assign : TeamAssign) (n : Nat) (team_filter : Option Nat),
      top [] assign n team_filter = []) ∧
    (∀ (ledger : Ledger) (assign : TeamAssign) (n : Nat) (t : Nat),
      (∀ p ∈ ledger, get_team assign p.1 ≠ some t) →
      top ledger assign n (some t) = []) := by
  refine ⟨fun ledger assign n hn => ?_, fun assign n tf => ?_, ?_⟩
  · have hperm : (List.insertionSort rank_le ledger).Perm ledger :=
      List.perm_insertionSort rank_le ledger
    have hlen : (List.insertionSort rank_le ledger).length = ledger.length :=
      hperm.length_eq
    simp only [top]
    rw [List.take_of_length_le (by omega)]
    exact hperm
  · cases tf <;> simp [top]
  · intro ledger assign n t hnone
    have hfilter : (ledger.filter fun p => get_team assign p.1 == some t) = [] := by
      rw [List.filter_eq_nil_iff]
      intro p hp
      simpa using hnone p hp
    simp [top, hfilter]

/-- Claim C7 witness: concrete instances of the three edge cases. -/
theorem top_edge_cases_witness :
    (top [(1, ⟨10, 0⟩), (2, ⟨30, 1⟩)] [] 5 none).Perm
      [(1, ⟨10, 0⟩), (2, ⟨30, 1⟩)] ∧
    top [] [] 5 none = [] ∧
    top [(1, ⟨10, 0⟩)] [(1, 4)] 5 (some 9) = [] := by
  refine ⟨top_edge_cases.1 _ [] 5 (by decide), top_edge_cases.2.1 [] 5 none,
    top_edge_cases.2.2 [(1, ⟨10, 0⟩)] [(1, 4)] 5 9 ?_⟩
  intro p hp
  simp only [List.mem_singleton] at hp
  subst hp
  decide

/-! ### Table lookup helper lemmas -/

/-- A `find?` hit on the key predicate has that key. -/
theorem find?_key_eq {α : Type} {l : List (Nat × α)} {u : Nat} {e : Nat × α}
    (h : l.find? (fun p => p.1 == u) = some e) : e.1 = u := by
  have := List.find?_some h
  simpa using this

/-- A successful keyed lookup of the second component pins down the whole
`find?` result. -/
theorem find?_eq_of_lookup {α : Type} {l : List (Nat × α)} {u : Nat} {r : α}
    (h : (l.find? fun p => p.1 == u).map Prod.snd = some r) :
    l.find? (fun p => p.1 == u) = some (u, r) := by
  cases hf : l.find? (fun p => p.1 == u) with
  | none => rw [hf] at h; simp at h
  | some e =>
    rw [hf] at h
    simp only [Option.map_some', Option.some.injEq] at h
    exact congrArg some (Prod.ext (find?_key_eq hf) h)

/-- Mapping a key-preserving function over a table commutes with keyed
`find?`. -/
theorem find?_map_key_preserving {α : Type} (f : Nat × α → Nat × α) (u : Nat)
    (hf : ∀ p, (f p).1 = p.1) (l : List (Nat × α)) :
    (l.map f).find? (fun p => p.1 == u) =
      (l.find? fun p => p.1 == u).map f := by
  induction l with
  | nil => rfl
  | cons p rest ih =>
    rw [List.map_cons, List.find?_cons, List.find?_cons, hf p]
    by_cases hp : (p.1 == u) = true
    · simp [hp]
    · simp only [Bool.not_eq_true] at hp
      simp [hp, ih]

/-- In a table with pairwise-distinct keys, two members sharing a key are the
same entry. -/
theorem eq_of_keys_nodup_mem {α : Type} {l : List (Nat × α)}
    (hnd : keys_nodup l) {a b : Nat × α} (ha : a ∈ l) (hb : b ∈ l)
    (hk : a.1 = b.1) : a = b := by
  by_contra hne
  exact List.Pairwise.forall (fun x y hxy => Ne.symm hxy) hnd ha hb hne hk

/-- In a list pairwise ordered by the strict relation `beats`, the number of
entries beating the element at index `i` is exactly `i`. -/
theorem countP_beats_eq_index (L : List (Nat × ScoreRecord))
    (hL : L.Pairwise beats) (i : Nat) (hi : i < L.length) :
    (L.countP fun x => decide (beats x L[i])) = i := by
  induction L generalizing i with
  | nil => simp at hi
  | cons a tl ih =>
    have ha : ∀ x ∈ tl, beats a x := (List.pairwise_cons.mp hL).1
    have htl : tl.Pairwise beats := (List.pairwise_cons.mp hL).2
    cases i with
    | zero =>
      simp only [List.getElem_cons_zero]
      rw [List.countP_cons]
      have h2 : (tl.countP fun x => decide (beats x a)) = 0 :=
        List.countP_eq_zero.mpr fun x hx => by
          simpa using beats_asymm a x (ha x hx)
      simp [h2, beats_irrefl a]
    | succ j =>
      have hj : j < tl.length := by simpa using hi
      simp only [List.getElem_cons_succ]
      rw [List.countP_cons, ih htl j hj]
      have h1 : beats a tl[j] := ha tl[j] (List.getElem_mem hj)
      simp [h1]

/-! ### Claim C6: `rank_of` agrees with the position in `top` -/

/-- Claim C6: over a ledger with distinct user identifiers, `rank_of u` is
`none` exactly for users with no `ScoreRecord`, and `rank_of u = some k`
exactly when the entry of `u` sits at (one-based) position `k` of
`top(population_size)`. -/
theorem rank_of_top_consistent (ledger : Ledger) (hnd : keys_nodup ledger) :
    (∀ u, get_score ledger u = none → rank_of ledger u = none) ∧
    (∀ u k, rank_of ledger u = some k ↔
      (1 ≤ k ∧ ∃ r, (top ledger [] ledger.length none)[k - 1]? = some (u, r))) := by
  have hperm : (List.insertionSort rank_le ledger).Perm ledger :=
    List.perm_insertionSort rank_le ledger
  have hpb : (List.insertionSort rank_le ledger).Pairwise beats :=
    pairwise_beats_insertionSort ledger hnd
  have htop : top ledger [] ledger.length none = List.insertionSort rank_le ledger := by
    simp only [top]
    exact List.take_of_length_le (by rw [hperm.length_eq])
  constructor
  · intro u hnone
    unfold get_score at hnone
    unfold rank_of
    rw [Option.map_eq_none'.mp hnone]
  · intro u k
    rw [htop]
    constructor
    · intro hrank
      unfold rank_of at hrank
      cases hf : ledger.find? (fun p => p.1 == u) with
      | none => rw [hf] at hrank; simp at hrank
      | some e =>
        rw [hf] at hrank
        simp only [Option.some.injEq] at hrank
        have he1 : e.1 = u := find?_key_eq hf
        have hmem : e ∈ List.insertionSort rank_le ledger :=
          hperm.mem_iff.mpr (List.mem_of_find?_eq_some hf)
        obtain ⟨i, hi, hLi⟩ := List.mem_iff_getElem.mp hmem
        have hcount : (ledger.countP fun x => decide (beats x e)) = i := by
          rw [← hperm.countP_eq, ← hLi]
          exact countP_beats_eq_index _ hpb i hi
        rw [hcount] at hrank
        refine ⟨by omega, e.2, ?_⟩
        have hk1 : k - 1 = i := by omega
        rw [hk1, List.getElem?_eq_getElem hi, hLi, ← he1]
    · rintro ⟨hk, r, hget⟩
      obtain ⟨hi, hLi⟩ := List.getElem?_eq_some.mp hget
      have hmemL : (u, r) ∈ List.insertionSort rank_le ledger := by
        rw [← hLi]; exact List.getElem_mem hi
      have hmem : (u, r) ∈ ledger := hperm.mem_iff.mp hmemL
      have hfind : ledger.find? (fun p => p.1 == u) = some (u, r) := by
        have hsome : (ledger.find? fun p => p.1 == u).isSome :=
          List.find?_isSome.mpr ⟨(u, r), hmem, by simp⟩
        cases hf : ledger.find? (fun p => p.1 == u) with
        | none => rw [hf] at hsome; simp at hsome
        | some e =>
          exact congrArg some
            (eq_of_keys_nodup_mem hnd (List.mem_of_find?_eq_some hf) hmem
              (find?_key_eq hf))
      unfold rank_of
      rw [hfind]
      have hcount : (ledger.countP fun x => decide (beats x (u, r))) = k - 1 := by
        rw [← hperm.countP_eq, ← hLi]
        exact countP_beats_eq_index _ hpb (k - 1) hi
      show some (1 + ledger.countP fun x => decide (beats x (u, r))) = some k
      rw [hcount]
      simp only [Option.some.injEq]
      omega

/-- Claim C6 witness: in a concrete three-user ledger, the iff yields the
concrete position of user 3, and a scoreless user has no rank. -/
theorem rank_of_top_consistent_witness :
    rank_of ([(1, ⟨10, 0⟩), (2, ⟨30, 1⟩), (3, ⟨20, 2⟩)] : Ledger) 3 = some 2 ∧
    rank_of ([(1, ⟨10, 0⟩), (2, ⟨30, 1⟩), (3, ⟨20, 2⟩)] : Ledger) 9 = none := by
  have h := rank_of_top_consistent
    ([(1, ⟨10, 0⟩), (2, ⟨30, 1⟩), (3, ⟨20, 2⟩)] : Ledger) (by decide)
  exact ⟨(h.2 3 2).mpr ⟨by decide, ⟨20, 2⟩, by decide⟩, h.1 9 (by decide)⟩

/-! ### Score-ledger update helper lemmas -/

/-- The per-entry update function of `set_record` never changes keys. -/
theorem reassign_key_preserving (v : Nat) (r : ScoreRecord) :
    ∀ p : Nat × ScoreRecord,
      ((if p.1 == v then (v, r) else p) : Nat × ScoreRecord).1 = p.1 := by
  intro p
  by_cases h : (p.1 == v) = true
  · have hh : p.1 = v := by simpa using h
    simp [h, hh]
  · simp [h]

/-- Keyed lookup after `set_record` is the mapped keyed lookup before it. -/
theorem set_record_find? (ledger : Ledger) (v : Nat) (r : ScoreRecord) (u : Nat) :
    (set_record ledger v r).find? (fun p => p.1 == u) =
      (ledger.find? fun p => p.1 == u).map
        fun p => if p.1 == v then (v, r) else p := by
  unfold set_record
  exact find?_map_key_preserving _ u (reassign_key_preserving v r) ledger

/-- A user has a rank exactly when the ledger holds an entry for the user. -/
theorem rank_of_isSome_iff (ledger : Ledger) (u : Nat) :
    (rank_of ledger u).isSome = (ledger.find? fun p => p.1 == u).isSome := by
  unfold rank_of
  cases ledger.find? (fun p => p.1 == u) <;> rfl

/-! ### Claim C5: the per-user ranked-position state machine -/

/-- Claim C5: a user moves from Unranked (no `ScoreRecord`, `rank_of = none`)
to Ranked on the first accepted score; every subsequent accepted score of that
user keeps the user Ranked with a position that improves or stays the same;
and no score submission by any user ever sends a Ranked user back to
Unranked. -/
theorem ranked_state_machine (ledger : Ledger) (u : Nat) :
    (∀ s t, get_score ledger u = none →
      (submit_score ledger u s t).2 = .Accepted s ∧
      (rank_of (submit_score ledger u s t).1 u).isSome) ∧
    (∀ s t r, get_score ledger u = some r → r.current_high_score < s →
      (submit_score ledger u s t).2 = .Accepted s ∧
      ∀ k, rank_of ledger u = some k →
        ∃ k1, rank_of (submit_score ledger u s t).1 u = some k1 ∧ k1 ≤ k) ∧
    (∀ v s t, (rank_of ledger u).isSome →
      (rank_of (submit_score ledger v s t).1 u).isSome) := by
  refine ⟨fun s t hnone => ?_, fun s t r hr hlt => ?_, fun v s t hsome => ?_⟩
  · have hfind : ledger.find? (fun p => p.1 == u) = none :=
      Option.map_eq_none'.mp hnone
    constructor
    · simp [submit_score, hnone]
    · simp only [submit_score, hnone]
      rw [rank_of_isSome_iff, List.find?_append, hfind]
      simp
  · have hfind : ledger.find? (fun p => p.1 == u) = some (u, r) :=
      find?_eq_of_lookup hr
    have hsub : submit_score ledger u s t =
        (set_record ledger u ⟨s, t⟩, .Accepted s) := by
      simp [submit_score, hr, hlt]
    refine ⟨by rw [hsub], fun k hk => ?_⟩
    have hfind2 : (set_record ledger u ⟨s, t⟩).find? (fun p => p.1 == u) =
        some (u, ⟨s, t⟩) := by
      rw [set_record_find?, hfind]
      simp
    have hk0 : k = 1 + (ledger.countP fun x => decide (beats x (u, r))) := by
      unfold rank_of at hk
      rw [hfind] at hk
      simp only [Option.some.injEq] at hk
      omega
    have hrank2 : rank_of (set_record ledger u ⟨s, t⟩) u =
        some (1 + ((set_record ledger u ⟨s, t⟩).countP
          fun x => decide (beats x (u, ⟨s, t⟩)))) := by
      unfold rank_of
      rw [hfind2]
    have hle : ((set_record ledger u ⟨s, t⟩).countP
        fun x => decide (beats x (u, ⟨s, t⟩))) ≤
        (ledger.countP fun x => decide (beats x (u, r))) := by
      unfold set_record
      rw [List.countP_map]
      refine List.countP_mono_left fun p hp hbp => ?_
      simp only [Function.comp_apply, decide_eq_true_eq] at hbp
      simp only [decide_eq_true_eq]
      by_cases hpu : (p.1 == u) = true
      · rw [if_pos hpu] at hbp
        exact absurd hbp (beats_irrefl _)
      · rw [if_neg hpu] at hbp
        simp only [beats] at hbp ⊢
        omega
    rw [hsub]
    exact ⟨_, hrank2, by omega⟩
  · rw [rank_of_isSome_iff] at hsome
    rw [rank_of_isSome_iff]
    unfold submit_score
    cases hv : get_score ledger v with
    | none =>
      simp only
      rw [List.find?_append]
      cases hf : ledger.find? (fun p => p.1 == u) with
      | none => rw [hf] at hsome; simp at hsome
      | some e => simp
    | some rv =>
      by_cases hlt : rv.current_high_score < s
      · simp only [hlt, if_true]
        rw [set_record_find?]
        cases hf : ledger.find? (fun p => p.1 == u) with
        | none => rw [hf] at hsome; simp at hsome
        | some e => simp
      · simp only [hlt, if_false]
        exact hsome

/-- Claim C5 witness: in a concrete two-user ledger, user 2 submits a higher
score; the submission is accepted and the rank of user 2 improves from 2. -/
theorem ranked_state_machine_witness :
    (submit_score [(1, ⟨10, 0⟩), (2, ⟨5, 1⟩)] 2 20 5).2 = .Accepted 20 ∧
    ∃ k1, rank_of (submit_score [(1, ⟨10, 0⟩), (2, ⟨5, 1⟩)] 2 20 5).1 2 =
      some k1 ∧ k1 ≤ 2 := by
  have h := (ranked_state_machine [(1, ⟨10, 0⟩), (2, ⟨5, 1⟩)] 2).2.1 20 5
    ⟨5, 1⟩ (by decide) (by decide)
  exact ⟨h.1, h.2 2 (by decide)⟩

/-! ### Claim C1: sequences of submissions store the maximum, in any order -/

/-- The stored score of a user with a record after `set_record` on that user. -/
theorem get_score_set_record_self (ledger : Ledger) (u : Nat) (r1 : ScoreRecord)
    (e : Nat × ScoreRecord) (hf : ledger.find? (fun p => p.1 == u) = some e) :
    get_score (set_record ledger u r1) u = some r1 := by
  unfold get_score
  rw [set_record_find?, hf]
  have he : e.1 = u := find?_key_eq hf
  simp [he]

/-- Left folds of `max` over permuted lists agree at every start value. -/
theorem foldl_max_perm {l l2 : List Nat} (h : l.Perm l2) :
    ∀ a : Nat, l.foldl max a = l2.foldl max a := by
  induction h with
  | nil => intro a; rfl
  | cons x h ih => intro a; simp only [List.foldl_cons]; exact ih _
  | swap x y l =>
    intro a
    simp only [List.foldl_cons]
    rw [Nat.max_right_comm]
  | trans h1 h2 ih1 ih2 => intro a; rw [ih1 a, ih2 a]

/-- After a sequence of submissions, a user who already had a record stores the
maximum of the old score and all submitted scores. -/
theorem submit_seq_score (u : Nat) (subs : List (Nat × Nat)) :
    ∀ (ledger : Ledger) (r : ScoreRecord), get_score ledger u = some r →
    ∃ r1, get_score (submit_seq ledger u subs) u = some r1 ∧
      r1.current_high_score =
        (subs.map Prod.fst).foldl max r.current_high_score := by
  induction subs with
  | nil => exact fun ledger r hr => ⟨r, hr, rfl⟩
  | cons p rest ih =>
    intro ledger r hr
    have hfind : ledger.find? (fun p => p.1 == u) = some (u, r) :=
      find?_eq_of_lookup hr
    by_cases hlt : r.current_high_score < p.1
    · have hsub : (submit_score ledger u p.1 p.2).1 =
          set_record ledger u ⟨p.1, p.2⟩ := by
        simp [submit_score, hr, hlt]
      have hget : get_score (set_record ledger u ⟨p.1, p.2⟩) u =
          some ⟨p.1, p.2⟩ :=
        get_score_set_record_self ledger u _ _ hfind
      obtain ⟨r1, h1, h2⟩ := ih _ _ hget
      refine ⟨r1, ?_, ?_⟩
      · show get_score
          (submit_seq (submit_score ledger u p.1 p.2).1 u rest) u = some r1
        rw [hsub]
        exact h1
      · rw [h2]
        simp only [List.map_cons, List.foldl_cons]
        congr 1
        omega
    · have hsub : (submit_score ledger u p.1 p.2).1 = ledger := by
        simp [submit_score, hr, hlt]
      obtain ⟨r1, h1, h2⟩ := ih ledger r hr
      refine ⟨r1, ?_, ?_⟩
      · show get_score
          (submit_seq (submit_score ledger u p.1 p.2).1 u rest) u = some r1
        rw [hsub]
        exact h1
      · rw [h2]
        simp only [List.map_cons, List.foldl_cons]
        congr 1
        omega

/-- After a nonempty sequence of submissions, a user who had no record stores
the maximum of all submitted scores. -/
theorem submit_seq_score_none (ledger : Ledger) (u : Nat)
    (hnone : get_score ledger u = none) (p : Nat × Nat) (rest : List (Nat × Nat)) :
    ∃ r1, get_score (submit_seq ledger u (p :: rest)) u = some r1 ∧
      r1.current_high_score = ((p :: rest).map Prod.fst).foldl max 0 := by
  have hsub : (submit_score ledger u p.1 p.2).1 = ledger ++ [(u, ⟨p.1, p.2⟩)] := by
    simp [submit_score, hnone]
  have hget : get_score (ledger ++ [(u, ⟨p.1, p.2⟩)]) u = some ⟨p.1, p.2⟩ := by
    unfold get_score
    rw [List.find?_append, Option.map_eq_none'.mp hnone]
    simp
  obtain ⟨r1, h1, h2⟩ := submit_seq_score u rest _ _ hget
  refine ⟨r1, ?_, ?_⟩
  · show get_score
      (submit_seq (submit_score ledger u p.1 p.2).1 u rest) u = some r1
    rw [hsub]
    exact h1
  · rw [h2]
    simp only [List.map_cons, List.foldl_cons]
    congr 1
    omega

/-- Claim C1: a fresh user who submits a finite sequence of scores ends with
exactly the maximum of the submitted scores; the final stored score is the
same for every permutation (interleaving order) of the submissions; and no
single submission by any user ever lowers a stored score. -/
theorem submit_score_max_invariant (ledger : Ledger) (u : Nat) :
    (∀ subs : List (Nat × Nat), get_score ledger u = none → subs ≠ [] →
      ∃ r1, get_score (submit_seq ledger u subs) u = some r1 ∧
        r1.current_high_score = (subs.map Prod.fst).foldl max 0) ∧
    (∀ subs subs2 : List (Nat × Nat), subs.Perm subs2 →
      (get_score (submit_seq ledger u subs) u).map ScoreRecord.current_high_score =
        (get_score (submit_seq ledger u subs2) u).map
          ScoreRecord.current_high_score) ∧
    (∀ v s t r, get_score ledger u = some r →
      ∃ r1, get_score (submit_score ledger v s t).1 u = some r1 ∧
        r.current_high_score ≤ r1.current_high_score) := by
  refine ⟨fun subs hnone hne => ?_, fun subs subs2 hperm => ?_,
    fun v s t r hr => ?_⟩
  · cases subs with
    | nil => exact absurd rfl hne
    | cons p rest => exact submit_seq_score_none ledger u hnone p rest
  · have hscores : (subs.map Prod.fst).Perm (subs2.map Prod.fst) :=
      hperm.map Prod.fst
    cases hg : get_score ledger u with
    | some r =>
      obtain ⟨r1, h1, h2⟩ := submit_seq_score u subs ledger r hg
      obtain ⟨r2, h3, h4⟩ := submit_seq_score u subs2 ledger r hg
      rw [h1, h3]
      simp only [Option.map_some']
      rw [h2, h4, foldl_max_perm hscores]
    | none =>
      cases subs with
      | nil =>
        have hnil : subs2 = [] := by
          have := hperm.length_eq
          simpa using List.length_eq_zero.mp this.symm
        rw [hnil]
      | cons p rest =>
        cases subs2 with
        | nil =>
          have : (0 : Nat) = (p :: rest).length := by
            simpa using hperm.length_eq.symm
          simp at this
        | cons q rest2 =>
          obtain ⟨r1, h1, h2⟩ := submit_seq_score_none ledger u hg p rest
          obtain ⟨r2, h3, h4⟩ := submit_seq_score_none ledger u hg q rest2
          rw [h1, h3]
          simp only [Option.map_some']
          rw [h2, h4, foldl_max_perm hscores]
  · have hfind : ledger.find? (fun p => p.1 == u) = some (u, r) :=
      find?_eq_of_lookup hr
    unfold submit_score
    cases hv : get_score ledger v with
    | none =>
      refine ⟨r, ?_, le_refl _⟩
      unfold get_score
      rw [List.find?_append, hfind]
      simp
    | some rv =>
      by_cases hlt : rv.current_high_score < s
      · simp only [hlt, if_true]
        by_cases huv : u = v
        · subst huv
          have hrv : rv = r := by
            rw [hr] at hv
            exact (Option.some.injEq _ _).mp hv.symm
          refine ⟨⟨s, t⟩, get_score_set_record_self ledger u _ _ hfind, ?_⟩
          simp only
          rw [hrv] at hlt
          omega
        · refine ⟨r, ?_, le_refl _⟩
          unfold get_score
          rw [set_record_find?, hfind]
          simp [huv]
      · simp only [hlt, if_false]
        exact ⟨r, hr, le_refl _⟩

/-- Claim C1 witness: a fresh user submitting 10, 30, 20 ends with 30, the
reversed order ends identically, and a further lower submission by the same
user does not lower the stored 30. -/
theorem submit_score_max_invariant_witness :
    (∃ r1, get_score (submit_seq [] 7 [(10, 0), (30, 1), (20, 2)]) 7 = some r1 ∧
      r1.current_high_score =
        (([(10, 0), (30, 1), (20, 2)] : List (Nat × Nat)).map Prod.fst).foldl
          max 0) ∧
    (get_score (submit_seq [] 7 [(10, 0), (30, 1), (20, 2)]) 7).map
        ScoreRecord.current_high_score =
      (get_score (submit_seq [] 7 [(20, 2), (30, 1), (10, 0)]) 7).map
        ScoreRecord.current_high_score ∧
    ∃ r1, get_score (submit_score [(7, ⟨30, 1⟩)] 7 5 9).1 7 = some r1 ∧
      30 ≤ r1.current_high_score := by
  have h := submit_score_max_invariant ([] : Ledger) 7
  have h3 := (submit_score_max_invariant [(7, ⟨30, 1⟩)] 7).2.2 7 5 9 ⟨30, 1⟩
    (by decide)
  exact ⟨h.1 [(10, 0), (30, 1), (20, 2)] (by decide) (by decide),
    h.2.1 [(10, 0), (30, 1), (20, 2)] [(20, 2), (30, 1), (10, 0)]
      (by decide), h3⟩

/-! ### Claim C4: team reassignment moves exactly one unit of membership -/

/-- Under distinct keys, rewriting the team of the one entry of user `u` from
`T1` to `T2` shifts exactly one unit of membership count from `T1` to `T2`,
stated as a subtraction-free balance over every team `t`. -/
theorem member_count_reassign (u T2 : Nat) :
    ∀ (a : TeamAssign) (T1 : Nat), keys_nodup a →
      a.find? (fun p => p.1 == u) = some (u, T1) →
      ∀ t, member_count (a.map fun p => if p.1 == u then (u, T2) else p) t +
          (if T1 = t then 1 else 0) =
        member_count a t + (if T2 = t then 1 else 0) := by
  intro a
  induction a with
  | nil => intro T1 _ hf; simp at hf
  | cons p rest ih =>
    intro T1 hnd hf t
    have hrest : keys_nodup rest := (List.pairwise_cons.mp hnd).2
    by_cases hp : (p.1 == u) = true
    · simp only [List.find?_cons, hp, Option.some.injEq] at hf
      have hpu : p.1 = u := by simpa using hp
      have hmapr : rest.map (fun p => if p.1 == u then (u, T2) else p) = rest := by
        refine List.map_congr_left (fun q hq => ?_) |>.trans (List.map_id rest)
        have hq1 : q.1 ≠ u := by
          rw [← hpu]
          exact Ne.symm ((List.pairwise_cons.mp hnd).1 q hq)
        simp [hq1]
      rw [List.map_cons, hmapr, if_pos hp, hf]
      simp only [member_count, List.countP_cons, beq_iff_eq]
      omega
    · have hp2 : (p.1 == u) = false := by simpa using hp
      simp only [List.find?_cons, hp2] at hf
      have hih := ih T1 hrest hf t
      rw [List.map_cons, if_neg hp]
      simp only [member_count, List.countP_cons, beq_iff_eq] at hih ⊢
      omega

/-- Claim C4: for a user currently on team `T1`, the single atomic transition
`set_team(u, T2)` (one state change, so no intermediate state with both counts
incremented or both decremented is ever observable) lowers the membership
count of `T1` by exactly one, raises that of `T2` by exactly one, and leaves
every other team's count unchanged. -/
theorem set_team_counts (a : TeamAssign) (u T1 T2 : Nat)
    (hnd : keys_nodup a) (hmem : get_team a u = some T1) (hne : T1 ≠ T2) :
    1 ≤ member_count a T1 ∧
    member_count (set_team a u T2) T1 = member_count a T1 - 1 ∧
    member_count (set_team a u T2) T2 = member_count a T2 + 1 ∧
    ∀ t, t ≠ T1 → t ≠ T2 → member_count (set_team a u T2) t = member_count a t := by
  have hfind : a.find? (fun p => p.1 == u) = some (u, T1) :=
    find?_eq_of_lookup hmem
  have hset : set_team a u T2 = a.map fun p => if p.1 == u then (u, T2) else p := by
    simp [set_team, hfind]
  have hpos : 1 ≤ member_count a T1 := by
    have : 0 < a.countP fun p => p.2 == T1 :=
      List.countP_pos_iff.mpr ⟨(u, T1), List.mem_of_find?_eq_some hfind, by simp⟩
    simpa [member_count] using this
  have h1 := member_count_reassign u T2 a T1 hnd hfind T1
  have h2 := member_count_reassign u T2 a T1 hnd hfind T2
  rw [if_pos rfl, if_neg (Ne.symm hne)] at h1
  rw [if_neg hne, if_pos rfl] at h2
  rw [hset]
  refine ⟨hpos, by omega, by omega, fun t ht1 ht2 => ?_⟩
  have h3 := member_count_reassign u T2 a T1 hnd hfind t
  rw [if_neg (Ne.symm ht1), if_neg (Ne.symm ht2)] at h3
  omega

/-- Claim C4 witness: moving user 1 from team 4 to team 5 in a concrete
registry shifts exactly one unit of membership and leaves team 9 untouched. -/
theorem set_team_counts_witness :
    1 ≤ member_count [(1, 4), (2, 4)] 4 ∧
    member_count (set_team [(1, 4), (2, 4)] 1 5) 4 =
      member_count [(1, 4), (2, 4)] 4 - 1 ∧
    member_count (set_team [(1, 4), (2, 4)] 1 5) 5 =
      member_count [(1, 4), (2, 4)] 5 + 1 ∧
    member_count (set_team [(1, 4), (2, 4)] 1 5) 9 =
      member_count [(1, 4), (2, 4)] 9 := by
  have h := set_team_counts [(1, 4), (2, 4)] 1 4 5 (by decide) (by decide)
    (by decide)
  exact ⟨h.1, h.2.1, h.2.2.1, h.2.2.2 9 (by decide) (by decide)⟩

end DevopsAssessment
